import Mathlib

/-!
Verification of the snapsort classification and planning pipeline.

Shallow embedding of the core of `src/snapsort`:
  * `analyzer.AnalysisResult` (feature records),
  * `runner._group_duplicates` (greedy nearest-canonical duplicate clustering),
  * the blur-classification and duplicate/blur resolution logic of `runner.run`,
  * `mover.unique_destination` / `move_or_copy` (collision-safe naming),
  * the effect order of directory creation versus plan execution in `runner.run`.

Paths are modelled as opaque strings, perceptual hashes as bit lists (the
`imagehash` subtraction operator is the Hamming distance of the bit patterns),
and real-valued variances/thresholds as rationals.
-/

namespace Snapsort

/-- Record produced by `analyzer.analyze_image`: path, optional perceptual
hash, optional whole-image Laplacian variance, optional per-face variances,
optional error message. -/
structure AnalysisResult where
  path : String
  phash : Option (List Bool)
  blur_variance : Option ℚ
  faces_variances : Option (List ℚ) := none
  error : Option String := none
deriving DecidableEq, Repr

/-- Hamming distance between two fixed-width bit patterns, as computed by
`imagehash.ImageHash.__sub__` (count of differing positions). -/
def hammingDist (a b : List Bool) : Nat :=
  (List.zipWith (fun x y => if x = y then (0 : Nat) else 1) a b).sum

/-- The final per-image reason strings used by `runner.run`:
"duplicate", "blurred", "partialBlurred", "slightlyBlurred". -/
inductive Reason
  | duplicate
  | blurred
  | partBlurred
  | slightlyBlurred
deriving DecidableEq, Repr

/-- Blur classification of one record, from `runner.run` lines 176-202.
`blurOnImage = true` models `config.blur_on == "image"`; otherwise the
face-aware branch runs, falling back to the image-level rule when the face
list is empty or absent (Python `r.faces_variances or []`). -/
def blurReason (blurOnImage : Bool) (blurThreshold partMinPercent : ℚ)
    (r : AnalysisResult) : Option Reason :=
  if blurOnImage then
    match r.blur_variance with
    | some v => if v < blurThreshold then some Reason.blurred else none
    | none => none
  else
    let face_vars := r.faces_variances.getD []
    let face_count := face_vars.length
    if 0 < face_count then
      let blurred_faces := face_vars.countP (fun v => decide (v < blurThreshold))
      if blurred_faces = face_count then some Reason.blurred
      else
        let percent : ℚ := ((blurred_faces : ℚ) / (face_count : ℚ)) * 100
        if partMinPercent ≤ percent then some Reason.partBlurred
        else if 0 < blurred_faces then some Reason.slightlyBlurred
        else none
    else
      match r.blur_variance with
      | some v => if v < blurThreshold then some Reason.blurred else none
      | none => none

/-- Duplicate/blur precedence resolution, from `runner.run` lines 204-211.
Returns `none` when the image keeps its place (no plan entry). -/
def resolveReason (is_dup : Bool) (blur : Option Reason) (prefer : Bool) :
    Option Reason :=
  if is_dup && blur.isSome then
    if prefer then some Reason.duplicate else blur
  else if is_dup then some Reason.duplicate
  else blur

/-- One duplicate cluster (`runner.DupGroup`): representative hash fixed at
creation, canonical (first) member index and path, member indices in
admission order. -/
structure DupGroup where
  rep_hash : List Bool
  canonical_index : Nat
  canonical_path : String
  members : List Nat
deriving DecidableEq, Repr

/-- The mutable state of `runner._group_duplicates`: the group list and the
set of paths marked duplicate (the Python dict only ever stores `True`, so
only membership matters). -/
structure ClusterState where
  groups : List DupGroup
  duplicate_map : List String
deriving DecidableEq, Repr

/-- The inner loop of `runner._group_duplicates` lines 38-44: scan the groups
with a running (min_dist, min_gi) pair, replacing it only on strictly smaller
distance, so the earliest group achieving the minimum wins ties. -/
def findNearestAux (h : List Bool) : List DupGroup → Nat → Option (Nat × Nat) →
    Option (Nat × Nat)
  | [], _, acc => acc
  | g :: gs, i, acc =>
    let dist := hammingDist g.rep_hash h
    match acc with
    | none => findNearestAux h gs (i + 1) (some (dist, i))
    | some (md, mg) =>
      if dist < md then findNearestAux h gs (i + 1) (some (dist, i))
      else findNearestAux h gs (i + 1) (some (md, mg))

/-- Nearest representative search over the current groups. -/
def findNearest (groups : List DupGroup) (h : List Bool) : Option (Nat × Nat) :=
  findNearestAux h groups 0 none

/-- In-place update of the group at a given index (Python `groups[min_gi]`
mutation). -/
def modifyIdx : List DupGroup → Nat → (DupGroup → DupGroup) → List DupGroup
  | [], _, _ => []
  | g :: gs, 0, f => f g :: gs
  | g :: gs, n + 1, f => g :: modifyIdx gs n f

/-- One iteration of the loop of `runner._group_duplicates` lines 34-52, on
the enumerated record (idx, res): skip when the record has no hash, start a
new group when there is no group within the threshold, otherwise join the
nearest (earliest on ties) group and mark the path as a duplicate. -/
def groupStep (threshold : Nat) (st : ClusterState) (p : Nat × AnalysisResult) :
    ClusterState :=
  match p.2.phash with
  | none => st
  | some h =>
    match findNearest st.groups h with
    | none => ⟨st.groups ++ [⟨h, p.1, p.2.path, [p.1]⟩], st.duplicate_map⟩
    | some (md, mg) =>
      if threshold < md then
        ⟨st.groups ++ [⟨h, p.1, p.2.path, [p.1]⟩], st.duplicate_map⟩
      else
        ⟨modifyIdx st.groups mg
            (fun g => ⟨g.rep_hash, g.canonical_index, g.canonical_path, g.members ++ [p.1]⟩),
          st.duplicate_map ++ [p.2.path]⟩

/-- `runner._group_duplicates`: greedy single-pass nearest-canonical
assignment over the records in discovery order. -/
def group_duplicates (results : List AnalysisResult) (threshold : Nat) : ClusterState :=
  (results.enum).foldl (groupStep threshold) ⟨[], []⟩

/-- Spec wording (claim C1): every existing group's representative is
strictly farther from the hash than the threshold; vacuously true when no
groups exist. -/
def allFar (t : Nat) (groups : List DupGroup) (h : List Bool) : Prop :=
  ∀ g ∈ groups, t < hammingDist g.rep_hash h

/-- Spec wording (claim C1): position i holds group g and is the
earliest-created group achieving the minimum distance to the hash: no group
is strictly closer and every earlier group is strictly farther. -/
def earliestMin (groups : List DupGroup) (h : List Bool) (i : Nat) (g : DupGroup) : Prop :=
  groups.get? i = some g
  ∧ (∀ g2 ∈ groups, hammingDist g.rep_hash h ≤ hammingDist g2.rep_hash h)
  ∧ (∀ j g2, j < i → groups.get? j = some g2 →
      hammingDist g.rep_hash h < hammingDist g2.rep_hash h)

/-- Path of the record at a given index of the run's record list. -/
def pathAt (results : List AnalysisResult) (m : Nat) : Option String :=
  (results.get? m).map (fun r => r.path)

/-- Invariant of the clustering loop relating a state to the full record
list: every group's first member is its canonical index, the canonical path
is the path of the record at the canonical index, members point at records
that carried a hash, the duplicate set is exactly the paths of non-head
members, and no record index occurs twice across the member lists. -/
structure ClusterInv (results : List AnalysisResult) (st : ClusterState) : Prop where
  head_canon : ∀ g ∈ st.groups, g.members.head? = some g.canonical_index
  canon_path : ∀ g ∈ st.groups, pathAt results g.canonical_index = some g.canonical_path
  mem_hash : ∀ g ∈ st.groups, ∀ m ∈ g.members,
    ∃ r, results.get? m = some r ∧ r.phash.isSome = true
  dup_char : ∀ p, p ∈ st.duplicate_map ↔
    ∃ g ∈ st.groups, ∃ m ∈ g.members.tail, pathAt results m = some p
  nodup_mem : ((st.groups.map (fun g => g.members)).flatten).Nodup

/-- A move plan (`mover.MovePlan`), with the destination directory chosen by
the final reason; the destination filename is the source filename, so only
the directory is tracked here. -/
structure MovePlan where
  src : String
  destDir : String
  reason : Reason
deriving DecidableEq, Repr

/-- Python truthiness of the optional error string (`if r.error:`). -/
def truthy : Option String → Bool
  | none => false
  | some s => !(s == "")

/-- The per-record body of the planning loop of `runner.run` lines 168-222:
skip errored records, look the path up in the duplicate map, classify blur,
resolve precedence, and emit a plan entry routed by the final reason. -/
def planFor (blurOnImage : Bool) (thr pmin : ℚ) (prefer : Bool) (dirs : Reason → String)
    (dupPaths : List String) (r : AnalysisResult) : Option MovePlan :=
  if truthy r.error then none
  else
    match resolveReason (decide (r.path ∈ dupPaths)) (blurReason blurOnImage thr pmin r)
        prefer with
    | none => none
    | some rsn => some ⟨r.path, dirs rsn, rsn⟩

/-- The full planning pass over the records in discovery order. -/
def buildPlans (blurOnImage : Bool) (thr pmin : ℚ) (prefer : Bool) (dirs : Reason → String)
    (dupPaths : List String) (results : List AnalysisResult) : List MovePlan :=
  results.filterMap (planFor blurOnImage thr pmin prefer dirs dupPaths)

/-- Lookup in the completion-order association list, modelling
`results_by_path[p]` (keys are unique, so first match equals last write). -/
def lookupPath (p : String) : List (String × AnalysisResult) → Option AnalysisResult
  | [] => none
  | q :: rest => if q.1 = p then some q.2 else lookupPath p rest

/-- Re-linearization of the delivered results into discovery order
(`runner.run` line 133: `[results_by_path[p] for p in paths]`). -/
def relinearize (paths : List String) (delivered : List (String × AnalysisResult)) :
    List AnalysisResult :=
  paths.filterMap (fun p => lookupPath p delivered)

/-- Filesystem effects performed by the execution phase of `runner.run`:
directory creation (`ensure_dir`) and execution of one move plan. -/
inductive FsEffect
  | mkdirEff (dir : String)
  | execEff (pl : MovePlan)
deriving DecidableEq, Repr

/-- The four up-front directory creations of `runner.run` lines 249-252, in
source order: blurred, partialBlurred, slightlyBlurred, duplicate. -/
def fourDirs (dirs : Reason → String) : List FsEffect :=
  [FsEffect.mkdirEff (dirs Reason.blurred), FsEffect.mkdirEff (dirs Reason.partBlurred),
    FsEffect.mkdirEff (dirs Reason.slightlyBlurred), FsEffect.mkdirEff (dirs Reason.duplicate)]

/-- Effects of the plan-execution loop (`runner.run` lines 271-288): in dry
run each plan is only logged; otherwise `move_or_copy` ensures the
destination directory and performs the move. -/
def execEffects (dryRun : Bool) (plans : List MovePlan) : List FsEffect :=
  (plans.map (fun pl =>
    if dryRun then [] else [FsEffect.mkdirEff pl.destDir, FsEffect.execEff pl])).flatten

/-- Effect trace of `runner.run` from discovery on: nothing at all when no
image was discovered (line 114 early return), otherwise the four up-front
directory creations (skipped in dry run) followed by the per-plan effects. -/
def runEffects (dryRun blurOnImage : Bool) (thr pmin : ℚ) (prefer : Bool)
    (dirs : Reason → String) (t : Nat) (results : List AnalysisResult) : List FsEffect :=
  if results.length = 0 then []
  else
    (if dryRun then [] else fourDirs dirs)
      ++ execEffects dryRun
          (buildPlans blurOnImage thr pmin prefer dirs
            (group_duplicates results t).duplicate_map results)

/-- Candidate collision filename `stem_N.ext` (`mover.unique_destination`). -/
def candName (base ext : String) (i : Nat) : String :=
  base ++ "_" ++ toString i ++ ext

/-- The probe loop of `mover.unique_destination` lines 23-26, started at
i = 1; the filesystem is a finite set of existing names in the destination
directory and the fuel bounds the number of probes (any fuel at least the
index of the first free candidate gives the loop's exact result). -/
def uniqueDestinationAux (fs : List String) (base ext : String) : Nat → Nat → String
  | 0, i => candName base ext i
  | fuel + 1, i =>
    if candName base ext i ∈ fs then uniqueDestinationAux fs base ext fuel (i + 1)
    else candName base ext i

/-- `mover.unique_destination`: return `stem.ext` itself when free, else the
first free `stem_N.ext` with N counting up from 1. -/
def unique_destination (fs : List String) (base ext : String) (fuel : Nat) : String :=
  if base ++ ext ∈ fs then uniqueDestinationAux fs base ext fuel 1 else base ++ ext

/-- Destination actually used by `mover.move_or_copy` lines 32-33: the
planned name unless it already exists, in which case `unique_destination`
(evaluated at execution time against the current filesystem state). -/
def move_dest (fs : List String) (base ext : String) (fuel : Nat) : String :=
  if base ++ ext ∈ fs then unique_destination fs base ext fuel else base ++ ext

/-- Executing one move: the chosen destination name comes into existence. -/
def execMove (fs : List String) (base ext : String) (fuel : Nat) : List String × String :=
  (fs ++ [move_dest fs base ext fuel], move_dest fs base ext fuel)

end Snapsort

namespace Snapsort

/-- C2: in faceAware mode with a non-empty face list, the tier cascade is
blurred when all faces are blurred, else partiallyBlurred when the blurred
percentage reaches `partMinPercent`, else slightlyBlurred when any face is
blurred; in particular 4 faces with variances [10, 10, 10, 200] at threshold
50 and minimum percentage 50 yield partiallyBlurred. -/
theorem faceAware_tiering (thr pmin : ℚ) (r : AnalysisResult) (fv : List ℚ)
    (hfv : r.faces_variances = some fv) (hne : fv ≠ []) :
    (blurReason false thr pmin r =
      (if fv.countP (fun v => decide (v < thr)) = fv.length then some Reason.blurred
       else if pmin ≤ ((fv.countP (fun v => decide (v < thr)) : ℚ) / (fv.length : ℚ)) * 100 then
         some Reason.partBlurred
       else if 0 < fv.countP (fun v => decide (v < thr)) then some Reason.slightlyBlurred
       else none))
    ∧ blurReason false 50 50
        ⟨"ex", some [], some 0, some [10, 10, 10, 200], none⟩ = some Reason.partBlurred := by
  constructor
  · have hlen : 0 < fv.length := List.length_pos.mpr hne
    simp only [blurReason, if_neg (Bool.false_ne_true), hfv, Option.getD_some,
      Bool.false_eq_true, if_false, if_pos hlen]
  · simp only [blurReason, Option.getD_some]
    norm_num [List.countP, List.countP.go]

/-- C2 witness: the cascade theorem applied at the concrete spec example. -/
theorem faceAware_tiering_witness :
    ((⟨"ex", some [], some 0, some [10, 10, 10, 200], none⟩ : AnalysisResult).faces_variances
        = some [10, 10, 10, 200] ∧ ([10, 10, 10, 200] : List ℚ) ≠ []) ∧
    blurReason false 50 50
        ⟨"ex", some [], some 0, some [10, 10, 10, 200], none⟩ = some Reason.partBlurred :=
  ⟨⟨rfl, by decide⟩,
    (faceAware_tiering 50 50 ⟨"ex", some [], some 0, some [10, 10, 10, 200], none⟩
      [10, 10, 10, 200] rfl (by decide)).2⟩

/-- C3: the classification resolver returns duplicate when the image is a
duplicate and either no blur tier was assigned or duplicates take precedence;
returns the blur tier when one was assigned and the image is not a duplicate
or duplicates do not take precedence; and returns keep (no plan entry,
modelled as `none`) when neither verdict applies. -/
theorem resolve_precedence (is_dup prefer : Bool) (blur : Option Reason) :
    (is_dup = true → (blur = none ∨ prefer = true) →
      resolveReason is_dup blur prefer = some Reason.duplicate)
    ∧ (blur ≠ none → (is_dup = false ∨ prefer = false) →
      resolveReason is_dup blur prefer = blur)
    ∧ (is_dup = false → blur = none → resolveReason is_dup blur prefer = none) := by
  refine ⟨fun hd hb => ?_, fun hb hd => ?_, fun hd hb => ?_⟩
  · subst hd
    rcases hb with hb | hp
    · subst hb
      simp [resolveReason]
    · subst hp
      cases blur <;> simp [resolveReason]
  · rcases Option.ne_none_iff_exists.mp hb with ⟨x, hx⟩
    subst hx
    rcases hd with hd | hp
    · subst hd
      simp [resolveReason]
    · subst hp
      cases is_dup <;> simp [resolveReason]
  · subst hd
    subst hb
    simp [resolveReason]

/-- C3 witness: an image flagged both duplicate and blurred with
preferDuplicateOverBlur set resolves to duplicate. -/
theorem resolve_precedence_witness :
    (true = true ∧ ((some Reason.blurred : Option Reason) = none ∨ true = true)) ∧
    resolveReason true (some Reason.blurred) true = some Reason.duplicate :=
  ⟨⟨rfl, Or.inr rfl⟩,
    (resolve_precedence true true (some Reason.blurred)).1 rfl (Or.inr rfl)⟩

/-- C4 counterexample: the claim asserts that in faceAware mode a non-empty
face list with zero blurred faces always yields tier none for every
partialMinPercent in [0, 100]; at partialMinPercent = 0 the code instead
computes percent = 0 ≥ 0 and assigns partiallyBlurred. One face of variance
100 at blur threshold 50 (so zero blurred faces) refutes the claim. -/
theorem noBlurredFaces_tier_cex :
    (([100] : List ℚ).countP (fun v => decide (v < 50)) = 0
      ∧ (0 : ℚ) ≤ 0 ∧ (0 : ℚ) ≤ 100)
    ∧ blurReason false 50 0 ⟨"a", some [], some 100, some [100], none⟩
        = some Reason.partBlurred := by
  refine ⟨⟨by decide, le_refl 0, by decide⟩, ?_⟩
  simp only [blurReason, Option.getD_some]
  norm_num [List.countP, List.countP.go]

/-- C4 amended: in faceAware mode with a non-empty face list in which no
entry is strictly below the blur threshold, the assigned tier is none for
every strictly positive partialMinPercent (at partialMinPercent = 0 the
percentage branch fires instead). -/
theorem noBlurredFaces_tier_none (thr pmin : ℚ) (r : AnalysisResult) (fv : List ℚ)
    (hfv : r.faces_variances = some fv) (hne : fv ≠ [])
    (hzero : fv.countP (fun v => decide (v < thr)) = 0)
    (hpos : 0 < pmin) :
    blurReason false thr pmin r = none := by
  have hlen : 0 < fv.length := List.length_pos.mpr hne
  simp only [blurReason, if_neg (Bool.false_ne_true), hfv, Option.getD_some,
    Bool.false_eq_true, if_false, if_pos hlen, hzero]
  have hne2 : (0 : Nat) ≠ fv.length := Nat.ne_of_lt hlen
  rw [if_neg hne2]
  have hperc : ((0 : Nat) : ℚ) / (fv.length : ℚ) * 100 = 0 := by
    simp
  rw [hperc, if_neg (not_le.mpr hpos)]
  simp

/-- C4 amended witness: one sharp face, threshold 50, positive
partialMinPercent 50 gives tier none. -/
theorem noBlurredFaces_tier_none_witness :
    ((⟨"a", some [], some 100, some [100], none⟩ : AnalysisResult).faces_variances
        = some [100]
      ∧ ([100] : List ℚ) ≠ []
      ∧ ([100] : List ℚ).countP (fun v => decide (v < 50)) = 0
      ∧ (0 : ℚ) < 50) ∧
    blurReason false 50 50 ⟨"a", some [], some 100, some [100], none⟩ = none :=
  ⟨⟨rfl, by decide, by decide, by decide⟩,
    noBlurredFaces_tier_none 50 50 ⟨"a", some [], some 100, some [100], none⟩
      [100] rfl (by decide) (by decide) (by decide)⟩

/-- C5: under the image-level rule (wholeImage mode, and the faceAware
fallback when the face list is empty) a record with blur variance v is
blurred exactly when v is strictly below the threshold and none otherwise;
equality with the threshold is sharp, and the fallback can never produce the
partial or slight tiers. -/
theorem imageLevel_blur (thr pmin : ℚ) (r : AnalysisResult) (v : ℚ)
    (hv : r.blur_variance = some v) :
    (blurReason true thr pmin r = (if v < thr then some Reason.blurred else none))
    ∧ (r.faces_variances.getD [] = [] →
        blurReason false thr pmin r = (if v < thr then some Reason.blurred else none))
    ∧ (v = thr → blurReason true thr pmin r = none)
    ∧ (r.faces_variances.getD [] = [] →
        blurReason false thr pmin r ≠ some Reason.partBlurred
        ∧ blurReason false thr pmin r ≠ some Reason.slightlyBlurred) := by
  have himg : blurReason true thr pmin r = (if v < thr then some Reason.blurred else none) := by
    simp [blurReason, hv]
  have hfb : r.faces_variances.getD [] = [] →
      blurReason false thr pmin r = (if v < thr then some Reason.blurred else none) := by
    intro hempty
    simp [blurReason, hempty, hv]
  refine ⟨himg, hfb, fun heq => ?_, fun hempty => ?_⟩
  · rw [himg, if_neg (by rw [heq]; exact lt_irrefl thr)]
  · rw [hfb hempty]
    by_cases hlt : v < thr <;> simp [hlt]

theorem findNearestAux_char (h : List Bool) :
    ∀ (gs : List DupGroup) (i md mg : Nat),
      ∃ md2 mg2, findNearestAux h gs i (some (md, mg)) = some (md2, mg2)
        ∧ ((md2 = md ∧ mg2 = mg ∧ ∀ g ∈ gs, md ≤ hammingDist g.rep_hash h)
          ∨ (∃ k, ∃ hk : k < gs.length, mg2 = i + k
              ∧ md2 = hammingDist (gs.get ⟨k, hk⟩).rep_hash h
              ∧ md2 < md
              ∧ (∀ g ∈ gs, md2 ≤ hammingDist g.rep_hash h)
              ∧ (∀ j, ∀ hj : j < k,
                  md2 < hammingDist (gs.get ⟨j, Nat.lt_trans hj hk⟩).rep_hash h))) := by
  intro gs
  induction gs with
  | nil =>
    intro i md mg
    exact ⟨md, mg, rfl, Or.inl ⟨rfl, rfl, by simp⟩⟩
  | cons g gs ih =>
    intro i md mg
    by_cases hd : hammingDist g.rep_hash h < md
    · obtain ⟨md2, mg2, heq, hcase⟩ := ih (i + 1) (hammingDist g.rep_hash h) i
      refine ⟨md2, mg2, ?_, ?_⟩
      · simp only [findNearestAux, if_pos hd]
        exact heq
      · rcases hcase with ⟨h1, h2, h3⟩ | ⟨k, hk, hmg, hmd, hlt, hmin, hearly⟩
        · refine Or.inr ⟨0, Nat.succ_pos _, by omega, ?_, ?_, ?_, ?_⟩
          · simpa using h1
          · omega
          · intro g2 hg2
            rcases List.mem_cons.mp hg2 with hg2 | hg2
            · subst hg2; omega
            · have := h3 g2 hg2
              omega
          · intro j hj
            exact absurd hj (Nat.not_lt_zero j)
        · refine Or.inr ⟨k + 1, Nat.succ_lt_succ hk, by omega, ?_, by omega, ?_, ?_⟩
          · simpa using hmd
          · intro g2 hg2
            rcases List.mem_cons.mp hg2 with hg2 | hg2
            · subst hg2; omega
            · exact hmin g2 hg2
          · intro j hj
            match j, hj with
            | 0, _ => simpa using hlt
            | j + 1, hj => simpa using hearly j (Nat.lt_of_succ_lt_succ hj)
    · obtain ⟨md2, mg2, heq, hcase⟩ := ih (i + 1) md mg
      refine ⟨md2, mg2, ?_, ?_⟩
      · simp only [findNearestAux, if_neg hd]
        exact heq
      · rcases hcase with ⟨h1, h2, h3⟩ | ⟨k, hk, hmg, hmd, hlt, hmin, hearly⟩
        · refine Or.inl ⟨h1, h2, ?_⟩
          intro g2 hg2
          rcases List.mem_cons.mp hg2 with hg2 | hg2
          · subst hg2; omega
          · exact h3 g2 hg2
        · refine Or.inr ⟨k + 1, Nat.succ_lt_succ hk, by omega, ?_, hlt, ?_, ?_⟩
          · simpa using hmd
          · intro g2 hg2
            rcases List.mem_cons.mp hg2 with hg2 | hg2
            · subst hg2; omega
            · exact hmin g2 hg2
          · intro j hj
            match j, hj with
            | 0, _ => simpa using Nat.lt_of_lt_of_le hlt (Nat.le_of_not_lt hd)
            | j + 1, hj => simpa using hearly j (Nat.lt_of_succ_lt_succ hj)

theorem findNearest_char (groups : List DupGroup) (h : List Bool) (hne : groups ≠ []) :
    ∃ d i, ∃ hi : i < groups.length, findNearest groups h = some (d, i)
      ∧ d = hammingDist (groups.get ⟨i, hi⟩).rep_hash h
      ∧ (∀ g ∈ groups, d ≤ hammingDist g.rep_hash h)
      ∧ (∀ j g2, j < i → groups.get? j = some g2 → d < hammingDist g2.rep_hash h) := by
  match groups, hne with
  | g :: gs, _ =>
    have hstart : findNearest (g :: gs) h
        = findNearestAux h gs 1 (some (hammingDist g.rep_hash h, 0)) := rfl
    obtain ⟨md2, mg2, heq, hcase⟩ := findNearestAux_char h gs 1 (hammingDist g.rep_hash h) 0
    rcases hcase with ⟨h1, h2, h3⟩ | ⟨k, hk, hmg, hmd, hlt, hmin, hearly⟩
    · refine ⟨md2, 0, Nat.succ_pos _, by rw [hstart, heq, h2], by simpa using h1, ?_, ?_⟩
      · intro g2 hg2
        rcases List.mem_cons.mp hg2 with hg2 | hg2
        · subst hg2; omega
        · exact h1 ▸ h3 g2 hg2
      · intro j g2 hj
        exact absurd hj (Nat.not_lt_zero j)
    · refine ⟨md2, k + 1, Nat.succ_lt_succ hk, ?_, by simpa using hmd, ?_, ?_⟩
      · rw [hstart, heq, hmg, Nat.add_comm 1 k]
      · intro g2 hg2
        rcases List.mem_cons.mp hg2 with hg2 | hg2
        · subst hg2; omega
        · exact hmin g2 hg2
      · intro j g2 hj hget
        match j, hj with
        | 0, _ =>
          have hgg : g = g2 := by simpa using hget
          subst hgg
          omega
        | j + 1, hj =>
          have hget2 : gs.get? j = some g2 := by simpa using hget
          have hjlen : j < gs.length := (List.get?_eq_some.mp hget2).1
          have hsome : gs.get? j = some (gs.get ⟨j, hjlen⟩) := @List.get?_eq_get _ gs j hjlen
          rw [hsome] at hget2
          have hg2eq : g2 = gs.get ⟨j, hjlen⟩ := (Option.some_inj.mp hget2).symm
          rw [hg2eq]
          exact hearly j (Nat.lt_of_succ_lt_succ hj)

/-- C1: one step of the duplicate clusterer creates a new group with the
record as sole canonical member exactly when no group's fixed representative
is within the threshold, and otherwise appends the record to the
earliest-created group achieving the minimum Hamming distance and marks its
path as a duplicate; in particular two records at distance exactly the
threshold end in one group (second marked duplicate) and at distance
threshold + 1 in two groups (nothing marked). -/
theorem groupStep_correct (t : Nat) (st : ClusterState) (idx : Nat) (res : AnalysisResult)
    (h : List Bool) (hph : res.phash = some h) :
    (allFar t st.groups h →
      groupStep t st (idx, res) = ⟨st.groups ++ [⟨h, idx, res.path, [idx]⟩], st.duplicate_map⟩)
    ∧ (∀ i g, earliestMin st.groups h i g → hammingDist g.rep_hash h ≤ t →
        groupStep t st (idx, res) =
          ⟨modifyIdx st.groups i
              (fun g2 => ⟨g2.rep_hash, g2.canonical_index, g2.canonical_path,
                g2.members ++ [idx]⟩),
            st.duplicate_map ++ [res.path]⟩)
    ∧ (¬ allFar t st.groups h →
        ∃ i g, earliestMin st.groups h i g ∧ hammingDist g.rep_hash h ≤ t)
    ∧ (∀ (t2 : Nat) (r1 r2 : AnalysisResult) (h1 h2 : List Bool),
        r1.phash = some h1 → r2.phash = some h2 →
        (hammingDist h1 h2 = t2 →
          group_duplicates [r1, r2] t2 = ⟨[⟨h1, 0, r1.path, [0, 1]⟩], [r2.path]⟩)
        ∧ (hammingDist h1 h2 = t2 + 1 →
          group_duplicates [r1, r2] t2 = ⟨[⟨h1, 0, r1.path, [0]⟩, ⟨h2, 1, r2.path, [1]⟩], []⟩)) := by
  refine ⟨?_, ?_, ?_, ?_⟩
  · intro hfar
    by_cases hemp : st.groups = []
    · simp [groupStep, hph, findNearest, hemp, findNearestAux]
    · obtain ⟨d, i, hi, heq, hd, hmin, hearly⟩ := findNearest_char st.groups h hemp
      have hfar2 : t < d := hd ▸ hfar (st.groups.get ⟨i, hi⟩) (List.get_mem _ _ _)
      simp [groupStep, hph, heq, if_pos hfar2]
  · rintro i g ⟨hget, hmin2, hearly2⟩ hle
    have hemp : st.groups ≠ [] := by
      intro hcon
      rw [hcon] at hget
      simp at hget
    obtain ⟨d, i0, hi0, heq, hd, hmin, hearly⟩ := findNearest_char st.groups h hemp
    have hgmem : g ∈ st.groups := List.get?_mem hget
    have hg0mem : st.groups.get ⟨i0, hi0⟩ ∈ st.groups := List.get_mem _ _ _
    have hdg : d ≤ hammingDist g.rep_hash h := hmin g hgmem
    have hgd : hammingDist g.rep_hash h ≤ d :=
      hd ▸ hmin2 (st.groups.get ⟨i0, hi0⟩) hg0mem
    have hde : d = hammingDist g.rep_hash h := Nat.le_antisymm hdg hgd
    have hii : i = i0 := by
      rcases Nat.lt_trichotomy i i0 with hlt | heqi | hgt
      · have := hearly i g hlt hget
        omega
      · exact heqi
      · have := hearly2 i0 (st.groups.get ⟨i0, hi0⟩) hgt (List.get?_eq_get hi0)
        omega
    subst hii
    have hnotlt : ¬ t < d := by omega
    simp [groupStep, hph, heq, if_neg hnotlt]
  · intro hnfar
    simp only [allFar, not_forall] at hnfar
    obtain ⟨g1, hg1mem, hg1⟩ := hnfar
    have hg1le : hammingDist g1.rep_hash h ≤ t := Nat.le_of_not_lt hg1
    have hemp : st.groups ≠ [] := List.ne_nil_of_mem hg1mem
    obtain ⟨d, i0, hi0, heq, hd, hmin, hearly⟩ := findNearest_char st.groups h hemp
    refine ⟨i0, st.groups.get ⟨i0, hi0⟩, ⟨List.get?_eq_get hi0, ?_, ?_⟩, ?_⟩
    · intro g2 hg2
      exact hd ▸ hmin g2 hg2
    · intro j g2 hj hget
      exact hd ▸ hearly j g2 hj hget
    · calc hammingDist (st.groups.get ⟨i0, hi0⟩).rep_hash h = d := hd.symm
        _ ≤ hammingDist g1.rep_hash h := hmin g1 hg1mem
        _ ≤ t := hg1le
  · intro t2 r1 r2 h1 h2 hph1 hph2
    have e1 : group_duplicates [r1, r2] t2
        = groupStep t2 (groupStep t2 ⟨[], []⟩ (0, r1)) (1, r2) := rfl
    have e2 : groupStep t2 ⟨[], []⟩ (0, r1)
        = ⟨[⟨h1, 0, r1.path, [0]⟩], []⟩ := by
      simp [groupStep, hph1, findNearest, findNearestAux]
    have e3 : findNearest [⟨h1, 0, r1.path, [0]⟩] h2 = some (hammingDist h1 h2, 0) := rfl
    constructor
    · intro hdist
      rw [e1, e2]
      simp [groupStep, hph2, e3, hdist, modifyIdx]
    · intro hdist
      rw [e1, e2]
      simp [groupStep, hph2, e3, hdist, modifyIdx]

/-- C1 witness: the step characterization applied to the first record of a
run (no groups yet, hash [true]), which creates a new singleton group. -/
theorem groupStep_correct_witness :
    ((⟨"a", some [true], some 0, none, none⟩ : AnalysisResult).phash = some [true]
      ∧ allFar 0 (⟨[], []⟩ : ClusterState).groups [true]) ∧
    groupStep 0 ⟨[], []⟩ (0, ⟨"a", some [true], some 0, none, none⟩)
      = ⟨[⟨[true], 0, "a", [0]⟩], []⟩ :=
  ⟨⟨rfl, by intro g hg; simp at hg⟩,
    (groupStep_correct 0 ⟨[], []⟩ 0 ⟨"a", some [true], some 0, none, none⟩ [true] rfl).1
      (by intro g hg; simp at hg)⟩

theorem uniqueDestinationAux_min (fs : List String) (base ext : String) :
    ∀ (fuel i N : Nat), i ≤ N → N - i ≤ fuel →
      (∀ j, i ≤ j → j < N → candName base ext j ∈ fs) →
      candName base ext N ∉ fs →
      uniqueDestinationAux fs base ext fuel i = candName base ext N := by
  intro fuel
  induction fuel with
  | zero =>
    intro i N hiN hfuel htaken hfree
    have hNi : N = i := by omega
    subst hNi
    rfl
  | succ fuel ih =>
    intro i N hiN hfuel htaken hfree
    by_cases hiN2 : i = N
    · subst hiN2
      simp only [uniqueDestinationAux, if_neg hfree]
    · have hlt : i < N := by omega
      have hmem : candName base ext i ∈ fs := htaken i (le_refl i) hlt
      simp only [uniqueDestinationAux, if_pos hmem]
      exact ih (i + 1) N (by omega) (by omega)
        (fun j hj1 hj2 => htaken j (by omega) hj2) hfree

/-- C8: when the planned destination name already exists, the executed
filename becomes `stem_N.ext` for the smallest positive N whose candidate
does not exist (probing from 1); executing two plans for files named img.jpg
into the same empty destination directory yields img.jpg then img_1.jpg. -/
theorem collision_resolution (fs : List String) (base ext : String) (fuel N : Nat)
    (hex : base ++ ext ∈ fs) (hpos : 0 < N)
    (htaken : ∀ j, j < N → 0 < j → candName base ext j ∈ fs)
    (hfree : candName base ext N ∉ fs) (hfuel : N ≤ fuel) :
    move_dest fs base ext fuel = candName base ext N
    ∧ (execMove [] "img" ".jpg" 2).2 = "img.jpg"
    ∧ (execMove (execMove [] "img" ".jpg" 2).1 "img" ".jpg" 2).2 = "img_1.jpg" := by
  refine ⟨?_, by decide, by decide⟩
  unfold move_dest unique_destination
  rw [if_pos hex, if_pos hex]
  exact uniqueDestinationAux_min fs base ext fuel 1 N hpos (by omega)
    (fun j hj1 hj2 => htaken j hj2 (by omega)) hfree

/-- C8 witness: with a.jpg and a_1.jpg both taken, a plan for a.jpg executes
as a_2.jpg, the smallest free candidate. -/
theorem collision_resolution_witness :
    (("a" ++ ".jpg") ∈ ["a.jpg", "a_1.jpg"] ∧ 0 < 2
      ∧ (∀ j, j < 2 → 0 < j → candName "a" ".jpg" j ∈ ["a.jpg", "a_1.jpg"])
      ∧ candName "a" ".jpg" 2 ∉ ["a.jpg", "a_1.jpg"] ∧ 2 ≤ 2) ∧
    move_dest ["a.jpg", "a_1.jpg"] "a" ".jpg" 2 = candName "a" ".jpg" 2 :=
  ⟨⟨by decide, by decide, by decide, by decide, by decide⟩,
    (collision_resolution ["a.jpg", "a_1.jpg"] "a" ".jpg" 2 2 (by decide) (by decide)
      (by decide) (by decide) (by decide)).1⟩

theorem lookupPath_perm (p : String) {d1 d2 : List (String × AnalysisResult)}
    (hperm : d1.Perm d2) :
    (d1.map Prod.fst).Nodup → lookupPath p d1 = lookupPath p d2 := by
  induction hperm with
  | nil =>
    intro
    rfl
  | cons x l12 ih =>
    intro hnd
    rw [List.map_cons] at hnd
    simp only [lookupPath]
    by_cases hx : x.1 = p
    · rw [if_pos hx, if_pos hx]
    · rw [if_neg hx, if_neg hx]
      exact ih (List.Nodup.of_cons hnd)
  | swap x y l =>
    intro hnd
    rw [List.map_cons, List.map_cons] at hnd
    have h2 : y.1 ∉ (x.1 :: List.map Prod.fst l) := (List.nodup_cons.mp hnd).1
    have hxy : y.1 ≠ x.1 := fun he => h2 (by rw [he]; exact List.mem_cons_self _ _)
    simp only [lookupPath]
    by_cases hy : y.1 = p <;> by_cases hx : x.1 = p
    · exact absurd (hy.trans hx.symm) hxy
    · rw [if_pos hy, if_neg hx, if_pos hy]
    · rw [if_neg hy, if_pos hx, if_pos hx]
    · rw [if_neg hy, if_neg hx, if_neg hx, if_neg hy]
  | trans h12 h23 ih1 ih2 =>
    intro hnd
    have hndm := (h12.map Prod.fst).nodup hnd
    exact (ih1 hnd).trans (ih2 hndm)

/-- C9: for a fixed discovery-ordered path list, delivering the per-path
analysis results in any other completion order (a permutation of the
path-result pairs, paths unique) yields the same re-linearized record list,
hence identical groups, duplicate set, and move plans. -/
theorem completion_order_independence (paths : List String)
    (d1 d2 : List (String × AnalysisResult)) (t : Nat) (blurOnImage : Bool)
    (thr pmin : ℚ) (prefer : Bool) (dirs : Reason → String)
    (hperm : d1.Perm d2) (hnd : (d1.map Prod.fst).Nodup) :
    relinearize paths d1 = relinearize paths d2
    ∧ group_duplicates (relinearize paths d1) t
        = group_duplicates (relinearize paths d2) t
    ∧ (group_duplicates (relinearize paths d1) t).duplicate_map
        = (group_duplicates (relinearize paths d2) t).duplicate_map
    ∧ buildPlans blurOnImage thr pmin prefer dirs
        (group_duplicates (relinearize paths d1) t).duplicate_map (relinearize paths d1)
      = buildPlans blurOnImage thr pmin prefer dirs
        (group_duplicates (relinearize paths d2) t).duplicate_map
        (relinearize paths d2) := by
  have hrel : relinearize paths d1 = relinearize paths d2 := by
    unfold relinearize
    congr 1
    funext p
    exact lookupPath_perm p hperm hnd
  exact ⟨hrel, by rw [hrel], by rw [hrel], by rw [hrel]⟩

/-- C9 witness: two records delivered in reversed completion order
re-linearize identically. -/
theorem completion_order_independence_witness :
    (([("a", ⟨"a", some [true], some 0, none, none⟩),
        ("b", ⟨"b", some [false], some 0, none, none⟩)] :
          List (String × AnalysisResult)).Perm
        [("b", ⟨"b", some [false], some 0, none, none⟩),
          ("a", ⟨"a", some [true], some 0, none, none⟩)]
      ∧ (([("a", ⟨"a", some [true], some 0, none, none⟩),
          ("b", ⟨"b", some [false], some 0, none, none⟩)] :
            List (String × AnalysisResult)).map Prod.fst).Nodup) ∧
    relinearize ["a", "b"]
        [("a", ⟨"a", some [true], some 0, none, none⟩),
          ("b", ⟨"b", some [false], some 0, none, none⟩)]
      = relinearize ["a", "b"]
        [("b", ⟨"b", some [false], some 0, none, none⟩),
          ("a", ⟨"a", some [true], some 0, none, none⟩)] :=
  ⟨⟨by decide, by decide⟩,
    (completion_order_independence ["a", "b"]
      [("a", ⟨"a", some [true], some 0, none, none⟩),
        ("b", ⟨"b", some [false], some 0, none, none⟩)]
      [("b", ⟨"b", some [false], some 0, none, none⟩),
        ("a", ⟨"a", some [true], some 0, none, none⟩)]
      0 false 50 50 false (fun _ => "d") (by decide) (by decide)).1⟩

theorem execEffects_dry (plans : List MovePlan) : execEffects true plans = [] := by
  induction plans with
  | nil => rfl
  | cons pl rest ih =>
    simp only [execEffects, List.map_cons, List.flatten_cons, if_pos rfl,
      List.nil_append]
    exact ih

/-- C10: a run that discovered at least one image and is not a dry run
creates all four destination directories up front, before any plan effect,
even when the plan list is empty; a dry run creates no directory at all. -/
theorem dirs_created_upfront (blurOnImage : Bool) (thr pmin : ℚ) (prefer : Bool)
    (dirs : Reason → String) (t : Nat) (results : List AnalysisResult)
    (hne : 0 < results.length) :
    runEffects false blurOnImage thr pmin prefer dirs t results
      = fourDirs dirs ++ execEffects false
          (buildPlans blurOnImage thr pmin prefer dirs
            (group_duplicates results t).duplicate_map results)
    ∧ (∀ d, FsEffect.mkdirEff d ∉ runEffects true blurOnImage thr pmin prefer dirs t results) := by
  constructor
  · unfold runEffects
    rw [if_neg (by omega)]
    rfl
  · intro d
    unfold runEffects
    by_cases h0 : results.length = 0
    · rw [if_pos h0]
      simp
    · rw [if_neg h0]
      rw [execEffects_dry]
      simp

/-- C10 witness: a single discovered (errored) image yields an empty plan
list, yet the four directories are still created first in a real run. -/
theorem dirs_created_upfront_witness :
    0 < ([⟨"a", none, none, none, some "boom"⟩] : List AnalysisResult).length ∧
    runEffects false false 50 50 true (fun _ => "d") 0
        [⟨"a", none, none, none, some "boom"⟩]
      = fourDirs (fun _ => "d") ++ execEffects false
          (buildPlans false 50 50 true (fun _ => "d")
            (group_duplicates [⟨"a", none, none, none, some "boom"⟩] 0).duplicate_map
            [⟨"a", none, none, none, some "boom"⟩]) :=
  ⟨by decide,
    (dirs_created_upfront false 50 50 true (fun _ => "d") 0
      [⟨"a", none, none, none, some "boom"⟩] (by decide)).1⟩

theorem modifyIdx_decomp (f : DupGroup → DupGroup) :
    ∀ (l : List DupGroup) (i : Nat) (hi : i < l.length),
      modifyIdx l i f = l.take i ++ f (l.get ⟨i, hi⟩) :: l.drop (i + 1) := by
  intro l
  induction l with
  | nil =>
    intro i hi
    exact absurd hi (Nat.not_lt_zero i)
  | cons g gs ih =>
    intro i hi
    match i with
    | 0 => rfl
    | n + 1 =>
      have hn : n < gs.length := Nat.lt_of_succ_lt_succ hi
      simp only [modifyIdx, List.take_succ_cons, List.get_cons_succ, List.drop_succ_cons,
        List.cons_append]
      rw [ih n hn]

theorem list_get_decomp (l : List DupGroup) (i : Nat) (hi : i < l.length) :
    l = l.take i ++ l.get ⟨i, hi⟩ :: l.drop (i + 1) := by
  conv_lhs => rw [← List.take_append_drop i l]
  rw [List.drop_eq_get_cons hi]

theorem flatten_members_mem {groups : List DupGroup} {m : Nat}
    (hm : m ∈ (groups.map (fun g => g.members)).flatten) :
    ∃ g ∈ groups, m ∈ g.members := by
  obtain ⟨ms, hms, hmem⟩ := List.mem_flatten.mp hm
  obtain ⟨g, hg, hge⟩ := List.mem_map.mp hms
  exact ⟨g, hg, hge ▸ hmem⟩

theorem mem_flatten_members {groups : List DupGroup} {m : Nat} {g : DupGroup}
    (hg : g ∈ groups) (hm : m ∈ g.members) :
    m ∈ (groups.map (fun g => g.members)).flatten := by
  refine List.mem_flatten.mpr ⟨g.members, ?_, hm⟩
  exact List.mem_map.mpr ⟨g, hg, rfl⟩

theorem clusterInv_newGroup (results : List AnalysisResult) (st : ClusterState)
    (p : Nat × AnalysisResult) (h : List Bool)
    (hinv : ClusterInv results st) (hres : results.get? p.1 = some p.2)
    (hph : p.2.phash = some h)
    (hfresh : ∀ g ∈ st.groups, ∀ m ∈ g.members, m ≠ p.1) :
    ClusterInv results ⟨st.groups ++ [⟨h, p.1, p.2.path, [p.1]⟩], st.duplicate_map⟩ := by
  constructor
  · intro g hg
    rcases List.mem_append.mp hg with hg | hg
    · exact hinv.head_canon g hg
    · rw [List.mem_singleton.mp hg]
      rfl
  · intro g hg
    rcases List.mem_append.mp hg with hg | hg
    · exact hinv.canon_path g hg
    · rw [List.mem_singleton.mp hg]
      show pathAt results p.1 = some p.2.path
      rw [pathAt, hres]
      rfl
  · intro g hg m hm
    rcases List.mem_append.mp hg with hg | hg
    · exact hinv.mem_hash g hg m hm
    · rw [List.mem_singleton.mp hg] at hm
      rw [List.mem_singleton.mp hm]
      exact ⟨p.2, hres, by rw [hph]; rfl⟩
  · intro q
    constructor
    · intro hq
      obtain ⟨g, hg, m, hm, hpath⟩ := (hinv.dup_char q).mp hq
      exact ⟨g, List.mem_append.mpr (Or.inl hg), m, hm, hpath⟩
    · rintro ⟨g, hg, m, hm, hpath⟩
      rcases List.mem_append.mp hg with hg | hg
      · exact (hinv.dup_char q).mpr ⟨g, hg, m, hm, hpath⟩
      · rw [List.mem_singleton.mp hg] at hm
        simp at hm
  · show (((st.groups ++ [(⟨h, p.1, p.2.path, [p.1]⟩ : DupGroup)]).map
        (fun g => g.members)).flatten).Nodup
    rw [List.map_append, List.flatten_append]
    simp only [List.map_cons, List.map_nil, List.flatten_cons, List.flatten_nil,
      List.append_nil]
    refine List.Nodup.append hinv.nodup_mem (List.nodup_singleton p.1) ?_
    intro a ha hain
    rw [List.mem_singleton.mp hain] at ha
    obtain ⟨g, hg, hm⟩ := flatten_members_mem ha
    exact hfresh g hg p.1 hm rfl

theorem clusterInv_join (results : List AnalysisResult) (st : ClusterState)
    (p : Nat × AnalysisResult) (h : List Bool) (mg : Nat) (hmg : mg < st.groups.length)
    (hinv : ClusterInv results st) (hres : results.get? p.1 = some p.2)
    (hph : p.2.phash = some h)
    (hfresh : ∀ g ∈ st.groups, ∀ m ∈ g.members, m ≠ p.1) :
    ClusterInv results
      ⟨modifyIdx st.groups mg
          (fun g2 => ⟨g2.rep_hash, g2.canonical_index, g2.canonical_path,
            g2.members ++ [p.1]⟩),
        st.duplicate_map ++ [p.2.path]⟩ := by
  have hdecomp := list_get_decomp st.groups mg hmg
  have hmod := modifyIdx_decomp
    (fun g2 : DupGroup => ⟨g2.rep_hash, g2.canonical_index, g2.canonical_path,
      g2.members ++ [p.1]⟩) st.groups mg hmg
  have hg0mem : st.groups.get ⟨mg, hmg⟩ ∈ st.groups := List.get_mem _ _ _
  have hmem_mod : ∀ g, g ∈ modifyIdx st.groups mg
      (fun g2 => ⟨g2.rep_hash, g2.canonical_index, g2.canonical_path,
        g2.members ++ [p.1]⟩) →
      g = ⟨(st.groups.get ⟨mg, hmg⟩).rep_hash, (st.groups.get ⟨mg, hmg⟩).canonical_index,
        (st.groups.get ⟨mg, hmg⟩).canonical_path,
        (st.groups.get ⟨mg, hmg⟩).members ++ [p.1]⟩ ∨ g ∈ st.groups := by
    intro g hg
    rw [hmod] at hg
    rcases List.mem_append.mp hg with hg | hg
    · exact Or.inr (List.take_subset mg st.groups hg)
    · rcases List.mem_cons.mp hg with hg | hg
      · exact Or.inl hg
      · exact Or.inr (List.drop_subset _ _ hg)
  have hmid_mem : (⟨(st.groups.get ⟨mg, hmg⟩).rep_hash,
      (st.groups.get ⟨mg, hmg⟩).canonical_index,
      (st.groups.get ⟨mg, hmg⟩).canonical_path,
      (st.groups.get ⟨mg, hmg⟩).members ++ [p.1]⟩ : DupGroup) ∈ modifyIdx st.groups mg
      (fun g2 => ⟨g2.rep_hash, g2.canonical_index, g2.canonical_path,
        g2.members ++ [p.1]⟩) := by
    rw [hmod]
    exact List.mem_append.mpr (Or.inr (List.mem_cons_self _ _))
  obtain ⟨tl, htl⟩ : ∃ tl, (st.groups.get ⟨mg, hmg⟩).members
      = (st.groups.get ⟨mg, hmg⟩).canonical_index :: tl := by
    have hh := hinv.head_canon _ hg0mem
    cases hm : (st.groups.get ⟨mg, hmg⟩).members with
    | nil =>
      rw [hm] at hh
      simp at hh
    | cons a tl2 =>
      refine ⟨tl2, ?_⟩
      rw [hm] at hh
      simp only [List.head?_cons, Option.some_inj] at hh
      rw [hh]
  have hsplit : ∀ g ∈ st.groups, g ∈ st.groups.take mg ∨ g = st.groups.get ⟨mg, hmg⟩
      ∨ g ∈ st.groups.drop (mg + 1) := by
    intro g hg
    rw [hdecomp] at hg
    rcases List.mem_append.mp hg with hg | hg
    · exact Or.inl hg
    · rcases List.mem_cons.mp hg with hg | hg
      · exact Or.inr (Or.inl hg)
      · exact Or.inr (Or.inr hg)
  have hpathp : pathAt results p.1 = some p.2.path := by
    rw [pathAt, hres]
    rfl
  constructor
  · intro g hg
    rcases hmem_mod g hg with hg2 | hg2
    · rw [hg2]
      show ((st.groups.get ⟨mg, hmg⟩).members ++ [p.1]).head?
        = some (st.groups.get ⟨mg, hmg⟩).canonical_index
      rw [htl]
      rfl
    · exact hinv.head_canon g hg2
  · intro g hg
    rcases hmem_mod g hg with hg2 | hg2
    · rw [hg2]
      show pathAt results (st.groups.get ⟨mg, hmg⟩).canonical_index
        = some (st.groups.get ⟨mg, hmg⟩).canonical_path
      exact hinv.canon_path _ hg0mem
    · exact hinv.canon_path g hg2
  · intro g hg m hm
    rcases hmem_mod g hg with hg2 | hg2
    · rw [hg2] at hm
      rcases List.mem_append.mp hm with hm | hm
      · exact hinv.mem_hash _ hg0mem m hm
      · rw [List.mem_singleton.mp hm]
        exact ⟨p.2, hres, by rw [hph]; rfl⟩
    · exact hinv.mem_hash g hg2 m hm
  · intro q
    constructor
    · intro hq
      rcases List.mem_append.mp hq with hq | hq
      · obtain ⟨g, hg, m, hm, hpath⟩ := (hinv.dup_char q).mp hq
        rcases hsplit g hg with hc | hc | hc
        · refine ⟨g, ?_, m, hm, hpath⟩
          rw [hmod]
          exact List.mem_append.mpr (Or.inl hc)
        · refine ⟨_, hmid_mem, m, ?_, hpath⟩
          show m ∈ ((st.groups.get ⟨mg, hmg⟩).members ++ [p.1]).tail
          rw [htl, List.cons_append, List.tail_cons]
          rw [hc, htl, List.tail_cons] at hm
          exact List.mem_append.mpr (Or.inl hm)
        · refine ⟨g, ?_, m, hm, hpath⟩
          rw [hmod]
          exact List.mem_append.mpr (Or.inr (List.mem_cons.mpr (Or.inr hc)))
      · rw [List.mem_singleton.mp hq]
        refine ⟨_, hmid_mem, p.1, ?_, hpathp⟩
        show p.1 ∈ ((st.groups.get ⟨mg, hmg⟩).members ++ [p.1]).tail
        rw [htl, List.cons_append, List.tail_cons]
        exact List.mem_append.mpr (Or.inr (List.mem_singleton.mpr rfl))
    · rintro ⟨g, hg, m, hm, hpath⟩
      rcases hmem_mod g hg with hg2 | hg2
      · rw [hg2] at hm
        rw [show ((⟨(st.groups.get ⟨mg, hmg⟩).rep_hash,
            (st.groups.get ⟨mg, hmg⟩).canonical_index,
            (st.groups.get ⟨mg, hmg⟩).canonical_path,
            (st.groups.get ⟨mg, hmg⟩).members ++ [p.1]⟩ : DupGroup)).members
            = (st.groups.get ⟨mg, hmg⟩).members ++ [p.1] from rfl, htl,
          List.cons_append, List.tail_cons] at hm
        rcases List.mem_append.mp hm with hm | hm
        · refine List.mem_append.mpr (Or.inl ((hinv.dup_char q).mpr ?_))
          refine ⟨st.groups.get ⟨mg, hmg⟩, hg0mem, m, ?_, hpath⟩
          rw [htl, List.tail_cons]
          exact hm
        · rw [List.mem_singleton.mp hm] at hpath
          rw [hpathp] at hpath
          rw [Option.some_inj.mp hpath]
          exact List.mem_append.mpr (Or.inr (List.mem_singleton.mpr rfl))
      · exact List.mem_append.mpr (Or.inl ((hinv.dup_char q).mpr ⟨g, hg2, m, hm, hpath⟩))
  · have hp1 : p.1 ∉ (st.groups.map (fun g => g.members)).flatten := by
      intro hcon
      obtain ⟨g, hg, hm⟩ := flatten_members_mem hcon
      exact hfresh g hg p.1 hm rfl
    have hold2 : (((st.groups.take mg
        ++ st.groups.get ⟨mg, hmg⟩ :: st.groups.drop (mg + 1)).map
          (fun g => g.members)).flatten).Nodup := by
      rw [← list_get_decomp st.groups mg hmg]
      exact hinv.nodup_mem
    have hp1d : p.1 ∉ (((st.groups.take mg
        ++ st.groups.get ⟨mg, hmg⟩ :: st.groups.drop (mg + 1)).map
          (fun g => g.members)).flatten) := by
      rw [← list_get_decomp st.groups mg hmg]
      exact hp1
    rw [List.map_append, List.map_cons, List.flatten_append, List.flatten_cons]
      at hold2 hp1d
    show ((modifyIdx st.groups mg
        (fun g2 => ⟨g2.rep_hash, g2.canonical_index, g2.canonical_path,
          g2.members ++ [p.1]⟩)).map (fun g => g.members)).flatten.Nodup
    rw [hmod, List.map_append, List.map_cons, List.flatten_append, List.flatten_cons]
    have hre : ((st.groups.take mg).map (fun g => g.members)).flatten
        ++ (((st.groups.get ⟨mg, hmg⟩).members ++ [p.1])
          ++ ((st.groups.drop (mg + 1)).map (fun g => g.members)).flatten)
        = (((st.groups.take mg).map (fun g => g.members)).flatten
            ++ (st.groups.get ⟨mg, hmg⟩).members)
          ++ (p.1 :: ((st.groups.drop (mg + 1)).map (fun g => g.members)).flatten) := by
      simp only [List.append_assoc, List.singleton_append]
    rw [hre]
    refine List.Perm.nodup List.perm_middle.symm ?_
    rw [← List.append_assoc] at hold2 hp1d
    exact List.nodup_cons.mpr ⟨hp1d, hold2⟩

theorem clusterInv_step (results : List AnalysisResult) (t : Nat) (st : ClusterState)
    (p : Nat × AnalysisResult)
    (hinv : ClusterInv results st)
    (hres : results.get? p.1 = some p.2)
    (hfresh : ∀ g ∈ st.groups, ∀ m ∈ g.members, m ≠ p.1) :
    ClusterInv results (groupStep t st p)
    ∧ ∀ g ∈ (groupStep t st p).groups, ∀ m ∈ g.members,
        m = p.1 ∨ ∃ g2 ∈ st.groups, m ∈ g2.members := by
  cases hph : p.2.phash with
  | none =>
    have hstep : groupStep t st p = st := by
      simp [groupStep, hph]
    rw [hstep]
    exact ⟨hinv, fun g hg m hm => Or.inr ⟨g, hg, hm⟩⟩
  | some h =>
    cases hfn : findNearest st.groups h with
    | none =>
      have hstep : groupStep t st p
          = ⟨st.groups ++ [⟨h, p.1, p.2.path, [p.1]⟩], st.duplicate_map⟩ := by
        simp [groupStep, hph, hfn]
      rw [hstep]
      refine ⟨clusterInv_newGroup results st p h hinv hres hph hfresh, ?_⟩
      intro g hg m hm
      rcases List.mem_append.mp hg with hg | hg
      · exact Or.inr ⟨g, hg, hm⟩
      · rw [List.mem_singleton.mp hg] at hm
        exact Or.inl (List.mem_singleton.mp hm)
    | some pair =>
      obtain ⟨md, mg⟩ := pair
      by_cases hts : t < md
      · have hstep : groupStep t st p
            = ⟨st.groups ++ [⟨h, p.1, p.2.path, [p.1]⟩], st.duplicate_map⟩ := by
          simp [groupStep, hph, hfn, hts]
        rw [hstep]
        refine ⟨clusterInv_newGroup results st p h hinv hres hph hfresh, ?_⟩
        intro g hg m hm
        rcases List.mem_append.mp hg with hg | hg
        · exact Or.inr ⟨g, hg, hm⟩
        · rw [List.mem_singleton.mp hg] at hm
          exact Or.inl (List.mem_singleton.mp hm)
      · have hne : st.groups ≠ [] := by
          intro hc
          rw [hc] at hfn
          simp [findNearest, findNearestAux] at hfn
        obtain ⟨d, i0, hi0, heq, _hd, _hmin, _hearly⟩ := findNearest_char st.groups h hne
        have hpair : (d, i0) = (md, mg) := Option.some_inj.mp (heq.symm.trans hfn)
        have hmg : mg < st.groups.length := by
          have h2 : i0 = mg := congrArg Prod.snd hpair
          omega
        have hstep : groupStep t st p
            = ⟨modifyIdx st.groups mg
                (fun g2 => ⟨g2.rep_hash, g2.canonical_index, g2.canonical_path,
                  g2.members ++ [p.1]⟩),
              st.duplicate_map ++ [p.2.path]⟩ := by
          simp [groupStep, hph, hfn, hts]
        rw [hstep]
        refine ⟨clusterInv_join results st p h mg hmg hinv hres hph hfresh, ?_⟩
        intro g hg m hm
        have hmod := modifyIdx_decomp
          (fun g2 : DupGroup => ⟨g2.rep_hash, g2.canonical_index, g2.canonical_path,
            g2.members ++ [p.1]⟩) st.groups mg hmg
        rw [hmod] at hg
        rcases List.mem_append.mp hg with hg | hg
        · exact Or.inr ⟨g, List.take_subset _ _ hg, hm⟩
        · rcases List.mem_cons.mp hg with hg | hg
          · rw [hg] at hm
            rcases List.mem_append.mp hm with hm | hm
            · exact Or.inr ⟨st.groups.get ⟨mg, hmg⟩, List.get_mem _ _ _, hm⟩
            · exact Or.inl (List.mem_singleton.mp hm)
          · exact Or.inr ⟨g, List.drop_subset _ _ hg, hm⟩

theorem clusterInv_fold (results : List AnalysisResult) (t : Nat) :
    ∀ (l : List (Nat × AnalysisResult)) (st : ClusterState),
      ClusterInv results st →
      (∀ q ∈ l, results.get? q.1 = some q.2) →
      (∀ g ∈ st.groups, ∀ m ∈ g.members, ∀ q ∈ l, m ≠ q.1) →
      (l.map Prod.fst).Nodup →
      ClusterInv results (l.foldl (groupStep t) st) := by
  intro l
  induction l with
  | nil =>
    intro st hinv _ _ _
    exact hinv
  | cons q l ih =>
    intro st hinv hspec hfreshl hnd
    rw [List.foldl_cons]
    have hres : results.get? q.1 = some q.2 := hspec q (List.mem_cons_self _ _)
    have hfresh : ∀ g ∈ st.groups, ∀ m ∈ g.members, m ≠ q.1 :=
      fun g hg m hm => hfreshl g hg m hm q (List.mem_cons_self _ _)
    obtain ⟨hinv2, hprov⟩ := clusterInv_step results t st q hinv hres hfresh
    rw [List.map_cons] at hnd
    refine ih (groupStep t st q) hinv2
      (fun q2 hq2 => hspec q2 (List.mem_cons_of_mem _ hq2)) ?_ (List.Nodup.of_cons hnd)
    intro g hg m hm q2 hq2
    rcases hprov g hg m hm with hm2 | ⟨g2, hg2, hm2⟩
    · rw [hm2]
      intro hcon
      have hinmap : q.1 ∈ List.map Prod.fst l := by
        rw [hcon]
        exact List.mem_map.mpr ⟨q2, hq2, rfl⟩
      exact (List.nodup_cons.mp hnd).1 hinmap
    · exact hfreshl g2 hg2 m hm2 q2 (List.mem_cons_of_mem _ hq2)

theorem clusterInv_empty (results : List AnalysisResult) : ClusterInv results ⟨[], []⟩ := by
  constructor
  · intro g hg
    simp at hg
  · intro g hg
    simp at hg
  · intro g hg
    simp at hg
  · intro q
    constructor
    · intro hq
      simp at hq
    · rintro ⟨g, hg, -⟩
      simp at hg
  · simp

theorem clusterInv_run (results : List AnalysisResult) (t : Nat) :
    ClusterInv results (group_duplicates results t) := by
  unfold group_duplicates
  refine clusterInv_fold results t results.enum ⟨[], []⟩ (clusterInv_empty results) ?_ ?_ ?_
  · intro q hq
    exact List.mem_enum_iff_get?.mp hq
  · intro g hg
    simp at hg
  · exact List.nodup_enum_map_fst results

theorem pathAt_inj (results : List AnalysisResult)
    (hnd : (results.map (fun r => r.path)).Nodup) {i j : Nat} {p : String}
    (hi : pathAt results i = some p) (hj : pathAt results j = some p) : i = j := by
  unfold pathAt at hi hj
  have hi2 : (results.map (fun r => r.path)).get? i = some p := by
    rw [List.get?_map]
    exact hi
  have hj2 : (results.map (fun r => r.path)).get? j = some p := by
    rw [List.get?_map]
    exact hj
  have hilen : i < (results.map (fun r => r.path)).length := (List.get?_eq_some.mp hi2).1
  exact List.get?_inj hilen hnd (hi2.trans hj2.symm)

theorem members_decomp (results : List AnalysisResult) (st : ClusterState)
    (hinv : ClusterInv results st) :
    ∀ g ∈ st.groups, ∃ tl, g.members = g.canonical_index :: tl
      ∧ g.canonical_index ∉ tl := by
  intro g hg
  have hh := hinv.head_canon g hg
  have hnodupg : g.members.Nodup :=
    (List.nodup_flatten.mp hinv.nodup_mem).1 g.members (List.mem_map.mpr ⟨g, hg, rfl⟩)
  cases hm : g.members with
  | nil =>
    rw [hm] at hh
    simp at hh
  | cons a tl =>
    rw [hm] at hh
    simp only [List.head?_cons, Option.some_inj] at hh
    rw [hm] at hnodupg
    refine ⟨tl, by rw [hh], ?_⟩
    rw [← hh]
    exact (List.nodup_cons.mp hnodupg).1

/-- C6: with pairwise distinct record paths, a cluster's canonical (first)
member path is never in the duplicate set, and the duplicate set holds
exactly the paths of non-canonical members of the produced groups. -/
theorem canonical_immunity (results : List AnalysisResult) (t : Nat)
    (hnd : (results.map (fun r => r.path)).Nodup) :
    (∀ g ∈ (group_duplicates results t).groups,
      g.canonical_path ∉ (group_duplicates results t).duplicate_map)
    ∧ (∀ p, p ∈ (group_duplicates results t).duplicate_map ↔
        ∃ g ∈ (group_duplicates results t).groups, ∃ m ∈ g.members,
          m ≠ g.canonical_index ∧ pathAt results m = some p) := by
  have hinv := clusterInv_run results t
  have hmembers := members_decomp results (group_duplicates results t) hinv
  constructor
  · intro g hg hcon
    obtain ⟨g2, hg2, m, hmtail, hpath⟩ := (hinv.dup_char g.canonical_path).mp hcon
    have hpathg : pathAt results g.canonical_index = some g.canonical_path :=
      hinv.canon_path g hg
    have hmi : m = g.canonical_index := pathAt_inj results hnd hpath hpathg
    obtain ⟨tl2, htl2, hnin2⟩ := hmembers g2 hg2
    obtain ⟨tl, htl, hnin⟩ := hmembers g hg
    rw [htl2, List.tail_cons] at hmtail
    by_cases hgg : g.members = g2.members
    · have hcc : g.canonical_index :: tl = g2.canonical_index :: tl2 := by
        rw [← htl, ← htl2]
        exact hgg
      injection hcc with hC2eq htls
      rw [hmi, hC2eq] at hmtail
      exact hnin2 hmtail
    · have hpair := (List.nodup_flatten.mp hinv.nodup_mem).2
      have hsym : Symmetric (List.Disjoint (α := Nat)) :=
        fun a b hab x hx1 hx2 => hab hx2 hx1
      have hdisj : List.Disjoint g.members g2.members :=
        List.Pairwise.forall hsym hpair (List.mem_map.mpr ⟨g, hg, rfl⟩)
          (List.mem_map.mpr ⟨g2, hg2, rfl⟩) hgg
      have hC_in_g : g.canonical_index ∈ g.members := by
        rw [htl]
        exact List.mem_cons_self _ _
      have hm_in_g2 : m ∈ g2.members := by
        rw [htl2]
        exact List.mem_cons_of_mem _ hmtail
      rw [hmi] at hm_in_g2
      exact hdisj hC_in_g hm_in_g2
  · intro p
    rw [hinv.dup_char p]
    constructor
    · rintro ⟨g, hg, m, hmtail, hpath⟩
      obtain ⟨tl, htl, hnin⟩ := hmembers g hg
      rw [htl, List.tail_cons] at hmtail
      refine ⟨g, hg, m, ?_, ?_, hpath⟩
      · rw [htl]
        exact List.mem_cons_of_mem _ hmtail
      · intro hcon
        rw [hcon] at hmtail
        exact hnin hmtail
    · rintro ⟨g, hg, m, hmem, hne2, hpath⟩
      obtain ⟨tl, htl, hnin⟩ := hmembers g hg
      refine ⟨g, hg, m, ?_, hpath⟩
      rw [htl, List.tail_cons]
      rw [htl] at hmem
      rcases List.mem_cons.mp hmem with hm | hm
      · exact absurd hm hne2
      · exact hm

/-- C6 witness: two identical-hash records at distinct paths cluster into one
group whose canonical path a is not in the duplicate set. -/
theorem canonical_immunity_witness :
    (([⟨"a", some [true], some 0, none, none⟩,
        ⟨"b", some [true], some 0, none, none⟩] : List AnalysisResult).map
      (fun r => r.path)).Nodup ∧
    (∀ g ∈ (group_duplicates
        [⟨"a", some [true], some 0, none, none⟩,
          ⟨"b", some [true], some 0, none, none⟩] 0).groups,
      g.canonical_path ∉ (group_duplicates
        [⟨"a", some [true], some 0, none, none⟩,
          ⟨"b", some [true], some 0, none, none⟩] 0).duplicate_map) :=
  ⟨by decide,
    (canonical_immunity
      [⟨"a", some [true], some 0, none, none⟩,
        ⟨"b", some [true], some 0, none, none⟩] 0 (by decide)).1⟩

theorem planFor_src (blurOnImage : Bool) (thr pmin : ℚ) (prefer : Bool)
    (dirs : Reason → String) (dupPaths : List String) (r : AnalysisResult)
    (pl : MovePlan)
    (hpl : planFor blurOnImage thr pmin prefer dirs dupPaths r = some pl) :
    pl.src = r.path := by
  unfold planFor at hpl
  by_cases he : truthy r.error
  · rw [if_pos he] at hpl
    exact Option.noConfusion hpl
  · rw [if_neg he] at hpl
    cases hres : resolveReason (decide (r.path ∈ dupPaths))
        (blurReason blurOnImage thr pmin r) prefer with
    | none =>
      rw [hres] at hpl
      exact Option.noConfusion hpl
    | some rsn =>
      rw [hres] at hpl
      rw [← Option.some_inj.mp hpl]

theorem filterMap_filter_nil {α β : Type} (f : α → Option β) (q : β → Bool) (l : List α)
    (hall : ∀ b ∈ l, ∀ y, f b = some y → q y = false) :
    (l.filterMap f).filter q = [] := by
  induction l with
  | nil => rfl
  | cons b l ih =>
    cases hfb : f b with
    | none =>
      simp only [List.filterMap_cons, hfb]
      exact ih (fun c hc => hall c (List.mem_cons_of_mem _ hc))
    | some y =>
      simp only [List.filterMap_cons, hfb, List.filter_cons,
        hall b (List.mem_cons_self _ _) y hfb, Bool.false_eq_true, if_false]
      exact ih (fun c hc => hall c (List.mem_cons_of_mem _ hc))

theorem filterMap_filter_eq {α β : Type} (f : α → Option β) (q : β → Bool) (l : List α)
    (a : α) (hmem : a ∈ l) (hnd : l.Nodup)
    (hq : ∀ y, f a = some y → q y = true)
    (hother : ∀ b ∈ l, b ≠ a → ∀ y, f b = some y → q y = false) :
    (l.filterMap f).filter q = (f a).toList := by
  induction l with
  | nil => simp at hmem
  | cons b l ih =>
    rcases List.mem_cons.mp hmem with hba | hmem2
    · subst hba
      have hanotin : a ∉ l := (List.nodup_cons.mp hnd).1
      have hnone : (l.filterMap f).filter q = [] := by
        refine filterMap_filter_nil f q l ?_
        intro c hc y hfy
        refine hother c (List.mem_cons_of_mem _ hc) ?_ y hfy
        intro hcon
        rw [hcon] at hc
        exact hanotin hc
      cases hfa : f a with
      | none =>
        simp only [List.filterMap_cons, hfa, Option.toList_none]
        exact hnone
      | some y =>
        simp only [List.filterMap_cons, hfa, List.filter_cons, hq y hfa, if_true,
          Option.toList_some]
        rw [hnone]
    · have hba : b ≠ a := by
        intro hcon
        rw [hcon] at hnd
        exact (List.nodup_cons.mp hnd).1 hmem2
      have ihres := ih hmem2 (List.Nodup.of_cons hnd)
        (fun c hc hca => hother c (List.mem_cons_of_mem _ hc) hca)
      cases hfb : f b with
      | none =>
        simp only [List.filterMap_cons, hfb]
        exact ihres
      | some y =>
        simp only [List.filterMap_cons, hfb, List.filter_cons,
          hother b (List.mem_cons_self _ _) hba y hfb, Bool.false_eq_true, if_false]
        exact ihres

/-- C7: with distinct paths and the analyzer invariant (an errored record
carries no hash, no variance and no face list), errored records are excluded
from the duplicate set, from every group, and from the move plan, while every
successfully-analyzed record receives exactly one disposition: its plan
entries are precisely the singleton determined by the resolver (empty for
keep). -/
theorem run_partition (blurOnImage : Bool) (thr pmin : ℚ) (prefer : Bool)
    (dirs : Reason → String) (t : Nat) (results : List AnalysisResult)
    (hnd : (results.map (fun r => r.path)).Nodup)
    (hinv : ∀ r ∈ results, r.error ≠ none →
      r.phash = none ∧ r.blur_variance = none ∧ r.faces_variances = none) :
    (∀ r ∈ results, r.error ≠ none →
      r.path ∉ (group_duplicates results t).duplicate_map
      ∧ (∀ g ∈ (group_duplicates results t).groups, ∀ m ∈ g.members,
          pathAt results m ≠ some r.path)
      ∧ r.path ∉ (buildPlans blurOnImage thr pmin prefer dirs
          (group_duplicates results t).duplicate_map results).map (fun pl => pl.src))
    ∧ (∀ r ∈ results, r.error = none →
        (buildPlans blurOnImage thr pmin prefer dirs
            (group_duplicates results t).duplicate_map results).filter
          (fun pl => pl.src == r.path)
        = (match resolveReason
              (decide (r.path ∈ (group_duplicates results t).duplicate_map))
              (blurReason blurOnImage thr pmin r) prefer with
           | none => []
           | some rsn => [⟨r.path, dirs rsn, rsn⟩])) := by
  have hcinv := clusterInv_run results t
  have hmemne : ∀ r ∈ results, r.error ≠ none →
      ∀ g ∈ (group_duplicates results t).groups, ∀ m ∈ g.members,
        pathAt results m ≠ some r.path := by
    intro r hr herr g hg m hm hcon
    obtain ⟨r2, hr2get, hr2hash⟩ := hcinv.mem_hash g hg m hm
    obtain ⟨j, hjget⟩ := List.get?_of_mem hr
    have hpj : pathAt results j = some r.path := by
      rw [pathAt, hjget]
      rfl
    have hmj : m = j := pathAt_inj results hnd hcon hpj
    rw [hmj, hjget] at hr2get
    have hr2r : r2 = r := Option.some_inj.mp hr2get.symm
    have hph := (hinv r hr herr).1
    rw [hr2r, hph] at hr2hash
    exact Bool.noConfusion hr2hash
  have hdupne : ∀ r ∈ results, r.error ≠ none →
      r.path ∉ (group_duplicates results t).duplicate_map := by
    intro r hr herr hcon
    obtain ⟨g, hg, m, hmtail, hpath⟩ := (hcinv.dup_char r.path).mp hcon
    have hmem : m ∈ g.members := by
      obtain ⟨tl, htl, -⟩ := members_decomp results _ hcinv g hg
      rw [htl, List.tail_cons] at hmtail
      rw [htl]
      exact List.mem_cons_of_mem _ hmtail
    exact hmemne r hr herr g hg m hmem hpath
  have hplannone : ∀ r ∈ results, r.error ≠ none →
      planFor blurOnImage thr pmin prefer dirs
        (group_duplicates results t).duplicate_map r = none := by
    intro r hr herr
    obtain ⟨hph, hbv, hfv⟩ := hinv r hr herr
    unfold planFor
    by_cases htr : truthy r.error
    · rw [if_pos htr]
    · rw [if_neg htr]
      have hdup : decide (r.path ∈ (group_duplicates results t).duplicate_map) = false := by
        simp only [decide_eq_false_iff_not]
        exact hdupne r hr herr
      have hblur : blurReason blurOnImage thr pmin r = none := by
        unfold blurReason
        cases blurOnImage <;> simp [hbv, hfv]
      rw [hdup, hblur]
      rfl
  have hplansne : ∀ r ∈ results, r.error ≠ none →
      r.path ∉ (buildPlans blurOnImage thr pmin prefer dirs
        (group_duplicates results t).duplicate_map results).map (fun pl => pl.src) := by
    intro r hr herr hcon
    obtain ⟨pl, hplmem, hplsrc⟩ := List.mem_map.mp hcon
    obtain ⟨r2, hr2mem, hfr2⟩ := List.mem_filterMap.mp hplmem
    have hsrc2 : pl.src = r2.path := planFor_src _ _ _ _ _ _ _ _ hfr2
    have hpeq : r2.path = r.path := by
      rw [← hsrc2, hplsrc]
    have hrr : r2 = r := List.inj_on_of_nodup_map hnd hr2mem hr hpeq
    rw [hrr, hplannone r hr herr] at hfr2
    exact Option.noConfusion hfr2
  refine ⟨fun r hr herr => ⟨hdupne r hr herr, hmemne r hr herr, hplansne r hr herr⟩, ?_⟩
  intro r hr herr
  have hndl : results.Nodup := List.Nodup.of_map _ hnd
  have hq : ∀ y, planFor blurOnImage thr pmin prefer dirs
      (group_duplicates results t).duplicate_map r = some y →
      (y.src == r.path) = true := by
    intro y hy
    have := planFor_src _ _ _ _ _ _ _ _ hy
    rw [beq_iff_eq]
    exact this
  have hother : ∀ b ∈ results, b ≠ r → ∀ y,
      planFor blurOnImage thr pmin prefer dirs
        (group_duplicates results t).duplicate_map b = some y →
      (y.src == r.path) = false := by
    intro b hb hbr y hy
    have hsrc := planFor_src _ _ _ _ _ _ _ _ hy
    rw [hsrc]
    rw [beq_eq_false_iff_ne]
    intro hcon
    exact hbr (List.inj_on_of_nodup_map hnd hb hr hcon)
  have heq := filterMap_filter_eq
    (planFor blurOnImage thr pmin prefer dirs (group_duplicates results t).duplicate_map)
    (fun pl => pl.src == r.path) results r hr hndl hq hother
  unfold buildPlans
  rw [heq]
  unfold planFor
  rw [herr]
  simp only [truthy, Bool.false_eq_true, if_false]
  cases hres : resolveReason
      (decide (r.path ∈ (group_duplicates results t).duplicate_map))
      (blurReason blurOnImage thr pmin r) prefer with
  | none => rfl
  | some rsn => rfl

/-- C7 witness: a run with one good and one errored record keeps the errored
path out of the duplicate set, out of all groups, and out of the plan. -/
theorem run_partition_witness :
    ((([⟨"a", some [true], some 0, none, none⟩,
        ⟨"b", none, none, none, some "boom"⟩] : List AnalysisResult).map
          (fun r => r.path)).Nodup
      ∧ (∀ r ∈ ([⟨"a", some [true], some 0, none, none⟩,
          ⟨"b", none, none, none, some "boom"⟩] : List AnalysisResult),
          r.error ≠ none →
          r.phash = none ∧ r.blur_variance = none ∧ r.faces_variances = none)) ∧
    (∀ r ∈ ([⟨"a", some [true], some 0, none, none⟩,
        ⟨"b", none, none, none, some "boom"⟩] : List AnalysisResult),
      r.error ≠ none →
      r.path ∉ (group_duplicates
          [⟨"a", some [true], some 0, none, none⟩,
            ⟨"b", none, none, none, some "boom"⟩] 5).duplicate_map
      ∧ (∀ g ∈ (group_duplicates
            [⟨"a", some [true], some 0, none, none⟩,
              ⟨"b", none, none, none, some "boom"⟩] 5).groups, ∀ m ∈ g.members,
          pathAt [⟨"a", some [true], some 0, none, none⟩,
            ⟨"b", none, none, none, some "boom"⟩] m ≠ some r.path)
      ∧ r.path ∉ (buildPlans false 50 50 true (fun _ => "d")
          (group_duplicates
            [⟨"a", some [true], some 0, none, none⟩,
              ⟨"b", none, none, none, some "boom"⟩] 5).duplicate_map
          [⟨"a", some [true], some 0, none, none⟩,
            ⟨"b", none, none, none, some "boom"⟩]).map (fun pl => pl.src)) :=
  ⟨⟨by decide, by decide⟩,
    (run_partition false 50 50 true (fun _ => "d") 5
      [⟨"a", some [true], some 0, none, none⟩,
        ⟨"b", none, none, none, some "boom"⟩] (by decide) (by decide)).1⟩

/-- C5 witness: variance exactly equal to the threshold classifies as not
blurred in wholeImage mode and via the faceAware fallback. -/
theorem imageLevel_blur_witness :
    ((⟨"a", some [], some 100, some [], none⟩ : AnalysisResult).blur_variance = some 100) ∧
    blurReason true 100 50 ⟨"a", some [], some 100, some [], none⟩ = none :=
  ⟨rfl,
    (imageLevel_blur 100 50 ⟨"a", some [], some 100, some [], none⟩ 100 rfl).2.2.1 rfl⟩

end Snapsort
